import Mathlib

/-!
Verification of the table-detection core of the PDFExcelExtract repository.

The definitions below are a shallow embedding of the `PDFProcessor` class in
`src/unnamed/part_002` (the canonical variant with layout detection, lines
1-618, plus the second processor variant's scoring function, lines 988-1013).
JavaScript floating-point numbers are modelled as rationals (`ℚ`); machine
strings are Lean `String`s.  `Math.round` is `jsRound` (round half toward
positive infinity).  The float products `length * 0.6` that are compared with
integer counts are modelled by the exact rational `3 * length / 5`; for every
integer threshold the double-precision product and the exact product lie in
the same unit interval, so the integer comparisons in the source agree with
the rational model at every input.

Regular expressions used by the source are embedded by `RPiece` lists: each
piece matches a run of characters of a class with a length bound, and
`matchExact` decides whether a list of pieces matches a character list
exactly; unanchored `RegExp.test` adds an unconstrained slack piece on both
sides (`testU`).
-/

-- The Batteries rational-number operations are marked `@[irreducible]`, which
-- blocks `decide`-style evaluation of concrete rationals; restore the default
-- reducibility inside this file so that concrete instances evaluate.
attribute [local semireducible] Rat.mul Rat.add Rat.sub Rat.inv Rat.ofScientific

/-- `Math.round`: round half toward positive infinity. -/
def jsRound (q : ℚ) : ℤ := ⌊q + 1/2⌋

/-- The whitespace characters matched by JavaScript `\s` and removed by
`String.trim`, restricted to the ASCII range (all inputs relevant to the
claims are ASCII). -/
def jsWs (c : Char) : Bool :=
  c = ' ' || c = '\t' || c = '\n' || c = '\r' || c = '\x0b' || c = '\x0c'

/-- `String.prototype.trim` on a character list. -/
def jsTrim (cs : List Char) : List Char :=
  ((cs.dropWhile jsWs).reverse.dropWhile jsWs).reverse

/-- `String.prototype.trim`. -/
def jsTrimS (s : String) : String := ⟨jsTrim s.data⟩

/-- `tableDetectionSensitivity` values. -/
inductive Sens where
  | low
  | medium
  | high
deriving DecidableEq

/-- One regular-expression piece: a run of at least `lo` (and, when `hi` is
`some h`, at most `h`) characters all satisfying `cls`. -/
structure RPiece where
  cls : Char → Bool
  lo : Nat
  hi : Option Nat

/-- Is `i` an admissible run length for piece `p`? -/
def okLen (p : RPiece) (i : Nat) : Bool :=
  decide (p.lo ≤ i) && (match p.hi with | none => true | some h => decide (i ≤ h))

/-- `matchExact ps cs` holds when the character list `cs` can be split into
consecutive runs realising exactly the pieces `ps`. -/
def matchExact : List RPiece → List Char → Bool
  | [], cs => cs.isEmpty
  | p :: ps, cs =>
    (List.range (cs.length + 1)).any (fun i =>
      okLen p i && (cs.take i).all p.cls && matchExact ps (cs.drop i))

/-- A slack piece: any run of any characters, used for unanchored matching. -/
def anySlack : RPiece := ⟨fun _ => true, 0, none⟩

/-- Unanchored `RegExp.test`: some substring matches the pieces. -/
def testU (ps : List RPiece) (s : String) : Bool :=
  matchExact (anySlack :: (ps ++ [anySlack])) s.data

/-- A pattern as used by `isTableLine`: pieces plus whether the source regex
is anchored with `^...$`. -/
structure RPat where
  pieces : List RPiece
  anchored : Bool

/-- `pattern.test(line)`. -/
def rtest (p : RPat) (line : String) : Bool :=
  if p.anchored then matchExact p.pieces line.data else testU p.pieces line

/-- `\|` : exactly one pipe character. -/
def pcPipe : RPiece := ⟨fun c => c = '|', 1, some 1⟩

/-- `\t` : exactly one tab character. -/
def pcTab : RPiece := ⟨fun c => c = '\t', 1, some 1⟩

/-- `.*` : any run of non-line-terminator characters. -/
def pcDotStar : RPiece :=
  ⟨fun c => !(c = '\n' || c = '\r' || c = '\u2028' || c = '\u2029'), 0, none⟩

/-- `\s{n,}` : at least `n` whitespace characters. -/
def pcWsRun (n : Nat) : RPiece := ⟨jsWs, n, none⟩

/-- `[\$\d,]+` : a nonempty run of currency/digit/comma characters. -/
def pcNumGrp : RPiece := ⟨fun c => c = '$' || c.isDigit || c = ',', 1, none⟩

/-- `\d+` : a nonempty digit run. -/
def pcDigitPlus : RPiece := ⟨Char.isDigit, 1, none⟩

/-- `\d` : exactly one digit. -/
def pcDigitOne : RPiece := ⟨Char.isDigit, 1, some 1⟩

/-- `%` : one percent sign. -/
def pcPct : RPiece := ⟨fun c => c = '%', 1, some 1⟩

/-- `\$` : one dollar sign. -/
def pcDollar : RPiece := ⟨fun c => c = '$', 1, some 1⟩

/-- JavaScript `\w` : ASCII letters, digits and underscore. -/
def jsWordChar (c : Char) : Bool := c.isAlphanum || c = '_'

/-- `\w+` : a nonempty word-character run. -/
def pcWordPlus : RPiece := ⟨jsWordChar, 1, none⟩

/-- `\s+` : a nonempty whitespace run. -/
def pcWsPlus : RPiece := ⟨jsWs, 1, none⟩

/-- The `low` sensitivity patterns of `isTableLine`
(`/\|.*\|.*\|/` and `/\t.*\t.*\t/`). -/
def lowPatterns : List RPat :=
  [⟨[pcPipe, pcDotStar, pcPipe, pcDotStar, pcPipe], false⟩,
   ⟨[pcTab, pcDotStar, pcTab, pcDotStar, pcTab], false⟩]

/-- The `medium` sensitivity patterns (`/\|.*\|/`, `/\t.*\t/`,
`/\s{3,}.*\s{3,}/`, `/[\$\d,]+.*[\$\d,]+/`). -/
def mediumPatterns : List RPat :=
  [⟨[pcPipe, pcDotStar, pcPipe], false⟩,
   ⟨[pcTab, pcDotStar, pcTab], false⟩,
   ⟨[pcWsRun 3, pcDotStar, pcWsRun 3], false⟩,
   ⟨[pcNumGrp, pcDotStar, pcNumGrp], false⟩]

/-- The `high` sensitivity patterns (`/\|/`, `/\t/`, `/\s{2,}.*\s{2,}/`,
`/.*\d+.*%/`, `/.*\$.*\d/`, `/^\w+\s+\w+.*\w+$/`). -/
def highPatterns : List RPat :=
  [⟨[pcPipe], false⟩,
   ⟨[pcTab], false⟩,
   ⟨[pcWsRun 2, pcDotStar, pcWsRun 2], false⟩,
   ⟨[pcDotStar, pcDigitPlus, pcDotStar, pcPct], false⟩,
   ⟨[pcDotStar, pcDollar, pcDotStar, pcDigitOne], false⟩,
   ⟨[pcWordPlus, pcWsPlus, pcWordPlus, pcDotStar, pcWordPlus], true⟩]

/-- The pattern table of `isTableLine`, indexed by sensitivity. -/
def patternsFor : Sens → List RPat
  | .low => lowPatterns
  | .medium => mediumPatterns
  | .high => highPatterns

/-- `PDFProcessor.isTableLine` (src/unnamed/part_002 lines 445-469). -/
def isTableLine (line : String) (sensitivity : Sens) : Bool :=
  (patternsFor sensitivity).any (fun p => rtest p line)

example : isTableLine "a | b | c | d" Sens.low = true := by decide
example : isTableLine "a | b" Sens.low = false := by decide
example : isTableLine "11" Sens.medium = true := by decide
example : isTableLine "11" Sens.high = false := by decide
example : isTableLine "hello world now" Sens.high = true := by decide
example : isTableLine "so, it goes." Sens.high = false := by decide

/-- The `boundingBox` field of `TableDetectionResult`. -/
structure BoundingBox where
  x : ℚ
  y : ℚ
  width : ℚ
  height : ℚ
deriving DecidableEq

/-- `TableDetectionResult` (src/unnamed/part_002 lines 20-31): the canonical
ExtractedTable shape produced by every detection path. -/
structure TableDetectionResult where
  tableIndex : ℕ
  headers : List String
  data : List (List String)
  confidence : ℤ
  boundingBox : BoundingBox
deriving DecidableEq

/-- `text.split('\n').map(l => l.trim()).filter(l => l.length > 0)`, the line
preparation shared by `detectTables` (line 399) and the final fallback
(line 88). -/
def textLines (text : String) : List String :=
  (((text.data.splitOn '\n').map jsTrim).filter (fun l => !l.isEmpty)).map
    (fun l => (⟨l⟩ : String))

/-- `String.prototype.split(/\s{2,}/)`: split on maximal runs of two or more
whitespace characters.  `pending` holds (reversed) whitespace read but not yet
committed, `acc` the (reversed) current cell. -/
def splitWsRunsGo : List Char → List Char → List Char → List (List Char)
  | pending, acc, [] =>
    if 2 ≤ pending.length then [acc.reverse, []] else [(pending ++ acc).reverse]
  | pending, acc, c :: rest =>
    if jsWs c then splitWsRunsGo (c :: pending) acc rest
    else if 2 ≤ pending.length then acc.reverse :: splitWsRunsGo [] [c] rest
    else splitWsRunsGo [] (c :: (pending ++ acc)) rest

/-- `String.prototype.split(/\s{2,}/)`. -/
def splitWsRuns (cs : List Char) : List (List Char) := splitWsRunsGo [] [] cs

example : splitWsRuns "a  b c".data = ["a".data, "b c".data] := by decide
example : splitWsRuns "  a ".data = ["".data, "a ".data] := by decide
example : splitWsRuns "a   ".data = ["a".data, "".data] := by decide

/-- `PDFProcessor.splitTableLine` (src/unnamed/part_002 lines 557-566). -/
def splitTableLine (line : String) (separator : Char) : List String :=
  if separator = '|' then
    (((line.data.splitOn '|').map jsTrim).filter (fun c => !c.isEmpty)).map
      (fun c => (⟨c⟩ : String))
  else if separator = '\t' then
    ((line.data.splitOn '\t').map jsTrim).map (fun c => (⟨c⟩ : String))
  else
    (((splitWsRuns line.data).map jsTrim).filter (fun c => !c.isEmpty)).map
      (fun c => (⟨c⟩ : String))

/-- Total number of `/\|/g` matches of a line block: one per pipe character. -/
def pipeScoreOf (lines : List String) : ℕ :=
  (lines.map (fun l => l.data.count '|')).sum

/-- Total number of `/\t/g` matches of a line block: one per tab character. -/
def tabScoreOf (lines : List String) : ℕ :=
  (lines.map (fun l => l.data.count '\t')).sum

/-- Does a line contain a run of two or more whitespace characters? -/
def hasWsRun2 (l : String) : Bool :=
  (l.data.zip l.data.tail).any (fun p => jsWs p.1 && jsWs p.2)

/-- Total number of `/\s{2,}/` matches of a line block.  The source regex has
no global flag, so `line.match` yields at most one match per line: the score
is the number of lines containing such a run. -/
def spaceScoreOf (lines : List String) : ℕ :=
  (lines.filter hasWsRun2).length

/-- `PDFProcessor.detectSeparator` (src/unnamed/part_002 lines 535-555):
fold the candidate list, replacing the best separator only on a strictly
higher score, starting from `('|', 0)`. -/
def detectSeparator (lines : List String) : Char :=
  (([('|', pipeScoreOf lines), ('\t', tabScoreOf lines),
     (' ', spaceScoreOf lines)] : List (Char × ℕ)).foldl
    (fun best cand => if cand.2 > best.2 then cand else best) ('|', 0)).1

/-- `PDFProcessor.detectHeaders` (src/unnamed/part_002 lines 568-581).
The float comparison `count >= row.length * 0.6` is modelled as
`3 * row.length ≤ 5 * count` (see the file comment). -/
def detectHeaders (row : List String) : Bool :=
  let indicators := row.map (fun cell =>
    let hasNumbers := cell.data.any Char.isDigit
    let hasCurrency := cell.data.any (fun c => c = '$' || c = '£' || c = '€' || c = '¥')
    let hasPercent := cell.data.any (fun c => c = '%')
    let isShort := decide (cell.length < 20)
    let hasCapitalization := match cell.data with
      | c :: _ => c.isUpper
      | [] => false
    !hasNumbers && !hasCurrency && !hasPercent && isShort && hasCapitalization)
  decide (3 * indicators.length ≤ 5 * (indicators.filter id).length)

/-- `/[\d$%]/.test(cell)`. -/
def hasDigitDollarPct (cell : String) : Bool :=
  cell.data.any (fun c => c.isDigit || c = '$' || c = '%')

/-- The fraction of headers that are "meaningful": length in (2,30) and not
purely numeric (`/^\d+$/`), from `calculateTableConfidence` lines 596-598. -/
def headerQualityOf (headers : List String) : ℚ :=
  ((headers.filter (fun h =>
    decide (2 < h.length) && decide (h.length < 30)
    && !(!h.data.isEmpty && h.data.all Char.isDigit))).length : ℚ) / (headers.length : ℚ)

/-- The fraction of data cells that are empty after trimming, from
`calculateTableConfidence` lines 608-610.  When `data` or `headers` is empty
the source divides 0 by 0 (yielding NaN); in the model the quotient is 0; the
detector only ever scores tables with at least 2 headers and 1 data row, where
both agree. -/
def emptyRatioOf (headers : List String) (data : List (List String)) : ℚ :=
  let emptyCells : ℕ := ((data.flatten).filter (fun cell => (jsTrim cell.data).isEmpty)).length
  let totalCells : ℕ := data.length * headers.length
  (emptyCells : ℚ) / (totalCells : ℚ)

/-- The unclamped confidence score shared by both variants of
`calculateTableConfidence` (the second variant omits the header-quality
bonus, toggled by `withHeaderQuality`). -/
def rawTableConfidence (withHeaderQuality : Bool) (headers : List String)
    (data : List (List String)) : ℤ :=
  50 + (if 2 ≤ headers.length then 10 else 0)
  + (if 2 ≤ data.length then 10 else 0)
  + (if data.all (fun row => row.length = headers.length) then 15 else 0)
  + (if withHeaderQuality then jsRound (headerQualityOf headers * 10) else 0)
  + (if data.any (fun row => row.any hasDigitDollarPct) then 10 else 0)
  - jsRound (emptyRatioOf headers data * 30)

/-- `PDFProcessor.calculateTableConfidence` of the canonical processor
(src/unnamed/part_002 lines 583-614): base 50, structural bonuses, header
quality bonus, numeric-data bonus, empty-cell penalty, clamped to [30,100]. -/
def calculateTableConfidence (headers : List String) (data : List (List String)) : ℤ :=
  max 30 (min 100 (rawTableConfidence true headers data))

/-- `PDFProcessor.calculateTableConfidence` of the second processor variant
(src/unnamed/part_002 lines 988-1013): same scoring without the header
quality bonus, clamped to [0,100]. -/
def calculateTableConfidenceV2 (headers : List String) (data : List (List String)) : ℤ :=
  max 0 (min 100 (rawTableConfidence false headers data))

/-- Row normalization inside `parseTable` (lines 501-509): pad a row with
empty strings up to `n` cells, then truncate to exactly `n` cells. -/
def normalizeRow (n : ℕ) (row : List String) : List String :=
  (row ++ List.replicate (n - row.length) "").take n

/-- The `validRows` of `parseTable` (lines 476-482): every line split on the
detected separator, keeping only rows with at least 2 cells. -/
def validRowsOf (lines : List String) : List (List String) :=
  (lines.map (fun line => splitTableLine line (detectSeparator lines))).filter
    (fun row => 2 ≤ row.length)

/-- The header row chosen by `parseTable` (lines 486-499): the first valid row
when `detectHeaders` accepts it, else synthesized `Column i` names as wide as
the widest valid row. -/
def tableHeadersOf (lines : List String) : List String :=
  if detectHeaders ((validRowsOf lines).headD []) then (validRowsOf lines).headD []
  else (List.range (((validRowsOf lines).map List.length).foldr max 0)).map
    (fun i => "Column " ++ toString (i + 1))

/-- The normalized data rows of `parseTable` (lines 491-509): the valid rows
(minus the header row when present), each padded/truncated to the header
width. -/
def tableDataOf (lines : List String) : List (List String) :=
  (if detectHeaders ((validRowsOf lines).headD []) then (validRowsOf lines).drop 1
   else validRowsOf lines).map (normalizeRow (tableHeadersOf lines).length)

/-- `PDFProcessor.parseTable` (src/unnamed/part_002 lines 471-533). -/
def parseTable (lines : List String) (tableIndex : ℕ) (confidenceThreshold : ℤ) :
    Option TableDetectionResult :=
  if lines.length < 2 then none
  else if (validRowsOf lines).length < 2 then none
  else if calculateTableConfidence (tableHeadersOf lines) (tableDataOf lines)
      < confidenceThreshold then none
  else some ⟨tableIndex, tableHeadersOf lines, tableDataOf lines,
    calculateTableConfidence (tableHeadersOf lines) (tableDataOf lines),
    ⟨0, (tableIndex : ℚ) * 100, 100, ((tableDataOf lines).length : ℚ) * 20⟩⟩

/-- The mutable scan state of the `detectTables` loop (lines 401-403). -/
structure ScanState where
  tables : List TableDetectionResult
  currentTable : List String
  tableIndex : ℕ
  inTable : Bool

/-- One iteration of the `detectTables` line loop
(src/unnamed/part_002 lines 405-432). -/
def scanStep (confidenceThreshold : ℤ) (sensitivity : Sens) (st : ScanState)
    (line : String) : ScanState :=
  if isTableLine line sensitivity && !st.inTable then
    { st with inTable := true, currentTable := [line] }
  else if isTableLine line sensitivity && st.inTable then
    { st with currentTable := st.currentTable ++ [line] }
  else if !isTableLine line sensitivity && st.inTable
      && decide (1 < st.currentTable.length) then
    match parseTable st.currentTable st.tableIndex confidenceThreshold with
    | some t =>
      if confidenceThreshold ≤ t.confidence then
        { tables := st.tables ++ [t], currentTable := [],
          tableIndex := st.tableIndex + 1, inTable := false }
      else { st with currentTable := [], inTable := false }
    | none => { st with currentTable := [], inTable := false }
  else if !isTableLine line sensitivity then
    { st with inTable := false, currentTable := [] }
  else st

/-- The trailing-block handling of `detectTables`
(src/unnamed/part_002 lines 434-440). -/
def scanFlush (confidenceThreshold : ℤ) (st : ScanState) : List TableDetectionResult :=
  if st.inTable && decide (1 < st.currentTable.length) then
    match parseTable st.currentTable st.tableIndex confidenceThreshold with
    | some t => if confidenceThreshold ≤ t.confidence then st.tables ++ [t] else st.tables
    | none => st.tables
  else st.tables

/-- `PDFProcessor.detectTables` on an already-split line list. -/
def detectTablesLines (lines : List String) (confidenceThreshold : ℤ)
    (sensitivity : Sens) : List TableDetectionResult :=
  scanFlush confidenceThreshold
    (lines.foldl (scanStep confidenceThreshold sensitivity) ⟨[], [], 0, false⟩)

/-- `PDFProcessor.detectTables` (src/unnamed/part_002 lines 391-443). -/
def detectTables (text : String) (confidenceThreshold : ℤ) (sensitivity : Sens) :
    List TableDetectionResult :=
  detectTablesLines (textLines text) confidenceThreshold sensitivity

/-- A positioned text item of one page, as consumed by
`detectTablesByLayout`: the string `str` with its `transform[4]`/`transform[5]`
(x/y) coordinates. -/
structure Token where
  str : String
  x : ℚ
  y : ℚ
deriving DecidableEq

/-- A row cluster of `detectTablesByLayout` (line 182): the rounded
y-coordinate of the token that opened the row, plus its items. -/
structure LayoutRow where
  y : ℚ
  items : List Token
deriving DecidableEq

/-- `Math.round(v * 100) / 100`: rounding to two decimals (lines 184, 199). -/
def roundTo2 (q : ℚ) : ℚ := (jsRound (q * 100) : ℚ) / 100

/-- Insert a token into the row list: it joins the first existing row whose
`y` is within the vertical tolerance of 3, else opens a new row at the end
(src/unnamed/part_002 lines 183-191). -/
def addToRow : List LayoutRow → ℚ → Token → List LayoutRow
  | [], y, t => [⟨y, [t]⟩]
  | r :: rs, y, t =>
    if |r.y - y| ≤ 3 then ⟨r.y, r.items ++ [t]⟩ :: rs
    else r :: addToRow rs y t

/-- The row-clustering loop (lines 183-191). -/
def clusterRows (items : List Token) : List LayoutRow :=
  items.foldl (fun rows t => addToRow rows (roundTo2 t.y) t) []

/-- Sort rows by descending `y` (top to bottom, line 192) and each row's items
by ascending `x` (line 193); JavaScript `Array.prototype.sort` is stable, and
stable insertion sort is extensionally the same function. -/
def sortRows (rows : List LayoutRow) : List LayoutRow :=
  (rows.insertionSort (fun a b => b.y ≤ a.y)).map
    (fun r => { r with items := r.items.insertionSort (fun a b => a.x ≤ b.x) })

/-- The collected, ascending-sorted rounded x-positions of all tokens
(src/unnamed/part_002 lines 196-203). -/
def xPositionsOf (rows : List LayoutRow) : List ℚ :=
  (((rows.map LayoutRow.items).flatten).map (fun t => roundTo2 t.x)).insertionSort
    (· ≤ ·)

/-- The column-cut positions: every x-position whose gap to its predecessor
exceeds the gap threshold of 20 (lines 204-210). -/
def cutsOf : List ℚ → List ℚ
  | a :: b :: rest => (if 20 < b - a then [b] else []) ++ cutsOf (b :: rest)
  | _ => []

/-- The bin boundaries `[minX, ...cuts, maxX + 1]` (line 215). -/
def binsOf (xs : List ℚ) : List ℚ :=
  xs.headD 0 :: (cutsOf xs ++ [xs.getLastD 0 + 1])

/-- A half-open column band `[minX, maxX)` (lines 212-218). -/
structure ColumnBand where
  minX : ℚ
  maxX : ℚ
deriving DecidableEq

/-- Turn consecutive bin boundaries into column bands (lines 216-218). -/
def bandsOf : List ℚ → List ColumnBand
  | a :: b :: rest => ⟨a, b⟩ :: bandsOf (b :: rest)
  | _ => []

/-- The derived column bands of a page's rows. -/
def columnsOf (rows : List LayoutRow) : List ColumnBand :=
  bandsOf (binsOf (xPositionsOf rows))

/-- `x >= c.minX && x < c.maxX` (line 227). -/
def bandContains (c : ColumnBand) (x : ℚ) : Bool :=
  decide (c.minX ≤ x) && decide (x < c.maxX)

/-- `Math.max(0, columns.findIndex(c => x >= c.minX && x < c.maxX))`
(line 227): the first band containing `x`, or 0 when no band contains it
(`findIndex` returns -1 and the clamp maps it to 0). -/
def colIndexOf (cols : List ColumnBand) (x : ℚ) : ℕ :=
  match cols.findIdx? (fun c => bandContains c x) with
  | some i => i
  | none => 0

/-- Write one token into its grid cell, joining with a single space when the
cell is already non-empty (line 228). -/
def placeToken (cols : List ColumnBand) (cells : List String) (t : Token) :
    List String :=
  let i := colIndexOf cols t.x
  let cur := cells.getD i ""
  cells.set i (if cur = "" then jsTrimS t.str else cur ++ " " ++ jsTrimS t.str)

/-- The grid row of one layout row: every token of the row is placed into one
of `cols.length` initially empty cells (lines 223-230; the token loop for row
`ri` writes only to `grid[ri]`, so the grid is the row-wise map of this
function). -/
def rowCells (cols : List ColumnBand) (r : LayoutRow) : List String :=
  r.items.foldl (placeToken cols) (List.replicate cols.length "")

/-- `r.filter((_, c) => nonEmptyCols[c])` (line 236): keep the cells whose
column index is marked `true` (an out-of-range index reads `undefined`,
which is falsy). -/
def maskFilter (mask : List Bool) (row : List String) : List String :=
  ((row.zip mask).filter (fun p => p.2)).map (fun p => p.1)

/-- The page's tokens with blank text discarded (line 177). -/
def pageItems (tokens : List Token) : List Token :=
  tokens.filter (fun t => !(jsTrimS t.str = ""))

/-- The sorted row clusters of a page. -/
def pageRows (tokens : List Token) : List LayoutRow :=
  sortRows (clusterRows (pageItems tokens))

/-- The column bands derived from a page's tokens. -/
def pageColumns (tokens : List Token) : List ColumnBand :=
  columnsOf (pageRows tokens)

/-- The page grid (lines 223-230): the token loop for row `ri` writes only to
`grid[ri]`, so the grid is the row-wise map of `rowCells`. -/
def pageGrid (tokens : List Token) : List (List String) :=
  (pageRows tokens).map (rowCells (pageColumns tokens))

/-- `grid.filter(row => row.some(cell => cell.trim().length > 0))` (line 233). -/
def pageNonEmptyRows (tokens : List Token) : List (List String) :=
  (pageGrid tokens).filter (fun row => row.any (fun cell => !(jsTrimS cell = "")))

/-- `Math.max(...nonEmptyRows.map(r => r.length), 0)` (line 234). -/
def pageColCount (tokens : List Token) : ℕ :=
  ((pageNonEmptyRows tokens).map List.length).foldr max 0

/-- `nonEmptyCols` (line 235): which column indices hold a non-blank cell in
some surviving row. -/
def pageColMask (tokens : List Token) : List Bool :=
  (List.range (pageColCount tokens)).map
    (fun c => (pageNonEmptyRows tokens).any (fun r => !(jsTrimS (r.getD c "") = "")))

/-- `cleaned` (line 236): the surviving rows with the empty columns removed. -/
def pageCleaned (tokens : List Token) : List (List String) :=
  (pageNonEmptyRows tokens).map (maskFilter (pageColMask tokens))

/-- The header heuristic (line 241): at least
`Math.ceil(headerRow.length * 0.6)` cells of the first cleaned row contain no
digit, dollar or percent character.  The float ceiling is modelled as
`(3 * len + 4) / 5` (see the file comment). -/
def pageIsHeader (tokens : List Token) : Bool :=
  let headerRow := (pageCleaned tokens).headD []
  decide ((3 * headerRow.length + 4) / 5
    ≤ (headerRow.filter (fun cell => !hasDigitDollarPct cell)).length)

/-- The emitted header row (line 242): the first cleaned row (empty cells
replaced by the literal `"Column"`), or synthesized `Column i` names. -/
def pageHeaders (tokens : List Token) : List String :=
  let headerRow := (pageCleaned tokens).headD []
  if pageIsHeader tokens then headerRow.map (fun h => if h = "" then "Column" else h)
  else (List.range headerRow.length).map (fun i => "Column " ++ toString (i + 1))

/-- The emitted data rows (line 243). -/
def pageData (tokens : List Token) : List (List String) :=
  (if pageIsHeader tokens then (pageCleaned tokens).drop 1 else pageCleaned tokens).map
    (fun r => r.map jsTrimS)

/-- The layout confidence (lines 246-250): 60, +20 when every data row is as
wide as the header row, +10 when the non-blank cells outnumber the rows. -/
def pageConfidence (tokens : List Token) : ℤ :=
  60 + (if (pageData tokens).all (fun r => r.length = (pageHeaders tokens).length)
        then 20 else 0)
  + (if decide ((pageData tokens).length <
      (((pageData tokens).flatten).filter (fun c => !(jsTrimS c = ""))).length)
     then 10 else 0)

/-- The emitted bounding box (line 257). -/
def pageBBox (tokens : List Token) : BoundingBox :=
  ⟨(((pageColumns tokens).head?).map ColumnBand.minX).getD 0,
   (((pageRows tokens).head?).map LayoutRow.y).getD 0,
   (((pageColumns tokens).getLast?).map ColumnBand.maxX).getD 0
     - (((pageColumns tokens).head?).map ColumnBand.minX).getD 0,
   ((pageRows tokens).length : ℚ) * 12⟩

/-- The per-page body of `PDFProcessor.detectTablesByLayout`
(src/unnamed/part_002 lines 174-258): zero or one table candidate per page
(`tableIndex` is assigned later by the document-wide counter, so it is 0
here). -/
def detectTablesByLayoutPage (tokens : List Token) : Option TableDetectionResult :=
  if (pageItems tokens).isEmpty then none
  else if (pageColumns tokens).length < 2 || 12 < (pageColumns tokens).length then none
  else if (pageCleaned tokens).isEmpty then none
  else some ⟨0, pageHeaders tokens, pageData tokens, pageConfidence tokens,
    pageBBox tokens⟩

/-- Assign sequential `tableIndex` values, mirroring the document-wide
`tableCounter` (lines 173, 253). -/
def reindexFrom : ℕ → List TableDetectionResult → List TableDetectionResult
  | _, [] => []
  | n, t :: ts => { t with tableIndex := n } :: reindexFrom (n + 1) ts

/-- `PDFProcessor.detectTablesByLayout` (src/unnamed/part_002 lines 165-266)
on the per-page token lists produced by the external positioned-token source:
at most the first 10 pages are analysed, each contributing zero or one
candidate, numbered in document order. -/
def detectTablesByLayout (pages : List (List Token)) : List TableDetectionResult :=
  reindexFrom 0 ((pages.take 10).filterMap detectTablesByLayoutPage)

/-- The final single-column fallback table of `processJob`
(src/unnamed/part_002 lines 87-96). -/
def fallbackTable (combinedText : String) : TableDetectionResult :=
  let lines := textLines combinedText
  ⟨0, ["Text"], lines.map (fun line => [line]), 80,
    ⟨0, 0, 100, max 20 ((lines.length : ℚ) * 20)⟩⟩

/-- The table-assembly step of `PDFProcessor.processJob`
(src/unnamed/part_002 lines 76-96): layout detection first, then text-pattern
detection on the combined text, then the single-column fallback. -/
def processJobTables (pages : List (List Token)) (combinedText : String)
    (confidenceThreshold : ℤ) (sensitivity : Sens) : List TableDetectionResult :=
  let tables := detectTablesByLayout pages
  if !tables.isEmpty then tables else
  let tables2 := detectTables combinedText confidenceThreshold sensitivity
  if !tables2.isEmpty then tables2 else
  [fallbackTable combinedText]

/-- The separator choice as the specification words it: the strictly highest
total match count wins, ties keep the first-considered candidate in the order
pipe, tab, space-run. -/
def specSeparatorChoice (lines : List String) : Char :=
  if pipeScoreOf lines ≥ tabScoreOf lines ∧ pipeScoreOf lines ≥ spaceScoreOf lines
  then '|'
  else if tabScoreOf lines ≥ spaceScoreOf lines then '\t'
  else ' '

theorem normalizeRow_length (n : ℕ) (row : List String) :
    (normalizeRow n row).length = n := by
  simp only [normalizeRow, List.length_take, List.length_append,
    List.length_replicate]
  omega

theorem calculateTableConfidence_bounds (headers : List String)
    (data : List (List String)) :
    30 ≤ calculateTableConfidence headers data
      ∧ calculateTableConfidence headers data ≤ 100 := by
  unfold calculateTableConfidence
  exact ⟨le_max_left _ _, max_le (by norm_num) (min_le_left _ _)⟩

theorem calculateTableConfidenceV2_bounds (headers : List String)
    (data : List (List String)) :
    0 ≤ calculateTableConfidenceV2 headers data
      ∧ calculateTableConfidenceV2 headers data ≤ 100 := by
  unfold calculateTableConfidenceV2
  exact ⟨le_max_left _ _, max_le (by norm_num) (min_le_left _ _)⟩

theorem parseTable_facts {lines : List String} {idx : ℕ} {thr : ℤ}
    {t : TableDetectionResult} (h : parseTable lines idx thr = some t) :
    (∀ r ∈ t.data, r.length = t.headers.length)
      ∧ 30 ≤ t.confidence ∧ t.confidence ≤ 100 := by
  unfold parseTable at h
  split at h
  · exact absurd h (by simp)
  split at h
  · exact absurd h (by simp)
  split at h
  · exact absurd h (by simp)
  have ht := (Option.some.injEq _ _).mp h
  subst ht
  refine ⟨?_, calculateTableConfidence_bounds _ _⟩
  intro r hr
  simp only [tableDataOf, List.mem_map] at hr
  obtain ⟨r0, _, hr0⟩ := hr
  subst hr0
  exact normalizeRow_length _ _

theorem parseTable_short {lines : List String} {idx : ℕ} {thr : ℤ}
    (h : lines.length < 2) : parseTable lines idx thr = none := by
  unfold parseTable
  simp [h]

theorem scanStep_tables (thr : ℤ) (sens : Sens) (st : ScanState) (line : String) :
    (scanStep thr sens st line).tables = st.tables ∨
    ∃ t, parseTable st.currentTable st.tableIndex thr = some t ∧
      (scanStep thr sens st line).tables = st.tables ++ [t] := by
  unfold scanStep
  split
  · exact Or.inl rfl
  split
  · exact Or.inl rfl
  split
  · split
    · rename_i t ht
      split
      · exact Or.inr ⟨t, ht, rfl⟩
      · exact Or.inl rfl
    · exact Or.inl rfl
  split
  · exact Or.inl rfl
  · exact Or.inl rfl

theorem scanFlush_tables (thr : ℤ) (st : ScanState) :
    scanFlush thr st = st.tables ∨
    ∃ t, parseTable st.currentTable st.tableIndex thr = some t ∧
      scanFlush thr st = st.tables ++ [t] := by
  unfold scanFlush
  split
  · split
    · rename_i t ht
      split
      · exact Or.inr ⟨t, ht, rfl⟩
      · exact Or.inl rfl
    · exact Or.inl rfl
  · exact Or.inl rfl

theorem detectTablesLines_forall (P : TableDetectionResult → Prop) (thr : ℤ)
    (sens : Sens)
    (hP : ∀ ls i t, parseTable ls i thr = some t → P t) :
    ∀ (lines : List String) (st : ScanState), (∀ t ∈ st.tables, P t) →
      ∀ t ∈ scanFlush thr (lines.foldl (scanStep thr sens) st), P t := by
  intro lines
  induction lines with
  | nil =>
    intro st hst t ht
    rcases scanFlush_tables thr st with hf | ⟨u, hu, hf⟩
    · rw [List.foldl_nil, hf] at ht
      exact hst t ht
    · rw [List.foldl_nil, hf] at ht
      rcases List.mem_append.mp ht with h1 | h1
      · exact hst t h1
      · rw [List.mem_singleton.mp h1]
        exact hP _ _ _ hu
  | cons l ls ih =>
    intro st hst
    rw [List.foldl_cons]
    refine ih (scanStep thr sens st l) ?_
    intro t ht
    rcases scanStep_tables thr sens st l with hs | ⟨u, hu, hs⟩
    · rw [hs] at ht
      exact hst t ht
    · rw [hs] at ht
      rcases List.mem_append.mp ht with h1 | h1
      · exact hst t h1
      · rw [List.mem_singleton.mp h1]
        exact hP _ _ _ hu

theorem detectTables_forall (P : TableDetectionResult → Prop) (text : String)
    (thr : ℤ) (sens : Sens)
    (hP : ∀ ls i t, parseTable ls i thr = some t → P t) :
    ∀ t ∈ detectTables text thr sens, P t := by
  intro t ht
  exact detectTablesLines_forall P thr sens hP (textLines text) ⟨[], [], 0, false⟩
    (by intro u hu; exact absurd hu (List.not_mem_nil u)) t ht

theorem placeToken_length (cols : List ColumnBand) (cells : List String) (t : Token) :
    (placeToken cols cells t).length = cells.length := by
  simp [placeToken]

theorem foldl_placeToken_length (cols : List ColumnBand) :
    ∀ (items : List Token) (acc : List String),
      (items.foldl (placeToken cols) acc).length = acc.length := by
  intro items
  induction items with
  | nil => intro acc; rfl
  | cons t ts ih =>
    intro acc
    rw [List.foldl_cons, ih (placeToken cols acc t), placeToken_length]

theorem rowCells_length (cols : List ColumnBand) (r : LayoutRow) :
    (rowCells cols r).length = cols.length := by
  rw [rowCells, foldl_placeToken_length, List.length_replicate]

theorem maskFilter_length :
    ∀ (mask : List Bool) (row : List String), row.length = mask.length →
      (maskFilter mask row).length = (mask.filter id).length := by
  intro mask
  induction mask with
  | nil =>
    intro row h
    rw [List.length_nil] at h
    rw [List.eq_nil_of_length_eq_zero h]
    rfl
  | cons b bs ih =>
    intro row h
    cases row with
    | nil => simp at h
    | cons x xs =>
      have hx : xs.length = bs.length := by
        simpa using h
      cases b with
      | false => simpa [maskFilter, List.zip_cons_cons] using ih xs hx
      | true => simpa [maskFilter, List.zip_cons_cons] using ih xs hx

theorem foldr_max_allEq :
    ∀ (l : List ℕ) (n : ℕ), l ≠ [] → (∀ x ∈ l, x = n) → l.foldr max 0 = n := by
  intro l
  induction l with
  | nil => intro n h; exact absurd rfl h
  | cons a as ih =>
    intro n _ hall
    cases as with
    | nil =>
      have : a = n := hall a (List.mem_cons_self a [])
      simp [this]
    | cons b bs =>
      have ht : (b :: bs).foldr max 0 = n :=
        ih n (by simp) (fun x hx => hall x (List.mem_cons_of_mem _ hx))
      have ha : a = n := hall a (List.mem_cons_self _ _)
      rw [List.foldr_cons, ht, ha, Nat.max_self]

theorem pageGrid_row_length {tokens : List Token} {r : List String}
    (h : r ∈ pageGrid tokens) : r.length = (pageColumns tokens).length := by
  simp only [pageGrid, List.mem_map] at h
  obtain ⟨row, _, hr⟩ := h
  subst hr
  exact rowCells_length _ _

theorem pageNonEmptyRows_row_length {tokens : List Token} {r : List String}
    (h : r ∈ pageNonEmptyRows tokens) : r.length = (pageColumns tokens).length :=
  pageGrid_row_length (List.mem_of_mem_filter h)

theorem pageColCount_eq {tokens : List Token} (h : pageNonEmptyRows tokens ≠ []) :
    pageColCount tokens = (pageColumns tokens).length := by
  unfold pageColCount
  refine foldr_max_allEq _ _ ?_ ?_
  · simpa using h
  · intro x hx
    simp only [List.mem_map] at hx
    obtain ⟨r, hr, hxr⟩ := hx
    subst hxr
    exact pageNonEmptyRows_row_length hr

theorem pageColMask_length (tokens : List Token) :
    (pageColMask tokens).length = pageColCount tokens := by
  simp [pageColMask]

theorem pageCleaned_row_length {tokens : List Token} {r : List String}
    (h : r ∈ pageCleaned tokens) :
    r.length = ((pageColMask tokens).filter id).length := by
  simp only [pageCleaned, List.mem_map] at h
  obtain ⟨r0, hr0, hr⟩ := h
  subst hr
  refine maskFilter_length _ _ ?_
  rw [pageColMask_length, pageNonEmptyRows_row_length hr0,
    pageColCount_eq (List.ne_nil_of_mem hr0)]

theorem pageCleaned_head_mem {tokens : List Token} (h : pageCleaned tokens ≠ []) :
    (pageCleaned tokens).headD [] ∈ pageCleaned tokens := by
  cases hc : pageCleaned tokens with
  | nil => exact absurd hc h
  | cons a l => simp

theorem pageHeaders_length {tokens : List Token} :
    (pageHeaders tokens).length = ((pageCleaned tokens).headD []).length := by
  unfold pageHeaders
  split
  · rw [List.length_map]
  · rw [List.length_map, List.length_range]

theorem pageData_row_length {tokens : List Token} (h : pageCleaned tokens ≠ [])
    {r : List String} (hr : r ∈ pageData tokens) :
    r.length = (pageHeaders tokens).length := by
  simp only [pageData, List.mem_map] at hr
  obtain ⟨r0, hr0, hrr⟩ := hr
  subst hrr
  have hr0m : r0 ∈ pageCleaned tokens := by
    rcases (by assumption : r0 ∈ (if pageIsHeader tokens
        then (pageCleaned tokens).drop 1 else pageCleaned tokens)) with hmem
    by_cases hih : pageIsHeader tokens
    · rw [if_pos hih] at hmem
      exact List.mem_of_mem_drop hmem
    · rwa [if_neg hih] at hmem
  rw [List.length_map, pageHeaders_length,
    pageCleaned_row_length hr0m, ← pageCleaned_row_length (pageCleaned_head_mem h)]

theorem pageConfidence_eq {tokens : List Token} (h : pageCleaned tokens ≠ []) :
    pageConfidence tokens = 80 ∨ pageConfidence tokens = 90 := by
  unfold pageConfidence
  have hall : (pageData tokens).all
      (fun r => r.length = (pageHeaders tokens).length) = true := by
    rw [List.all_eq_true]
    intro r hr
    exact decide_eq_true (pageData_row_length h hr)
  rw [if_pos hall]
  split
  · right; norm_num
  · left; norm_num

theorem detectTablesByLayoutPage_facts {tokens : List Token}
    {t : TableDetectionResult} (h : detectTablesByLayoutPage tokens = some t) :
    (∀ r ∈ t.data, r.length = t.headers.length)
      ∧ (t.confidence = 80 ∨ t.confidence = 90) := by
  unfold detectTablesByLayoutPage at h
  split at h
  · exact absurd h (by simp)
  split at h
  · exact absurd h (by simp)
  split at h
  · exact absurd h (by simp)
  rename_i hne
  have hcl : pageCleaned tokens ≠ [] := by
    simpa using hne
  have ht := (Option.some.injEq _ _).mp h
  subst ht
  exact ⟨fun r hr => pageData_row_length hcl hr, pageConfidence_eq hcl⟩

theorem reindexFrom_mem :
    ∀ (n : ℕ) (l : List TableDetectionResult) (t : TableDetectionResult),
      t ∈ reindexFrom n l →
      ∃ u ∈ l, t.headers = u.headers ∧ t.data = u.data ∧ t.confidence = u.confidence := by
  intro n l
  induction l generalizing n with
  | nil => intro t ht; exact absurd ht (List.not_mem_nil t)
  | cons u us ih =>
    intro t ht
    rw [reindexFrom] at ht
    rcases List.mem_cons.mp ht with h1 | h1
    · exact ⟨u, List.mem_cons_self _ _, by rw [h1], by rw [h1], by rw [h1]⟩
    · obtain ⟨v, hv, hfacts⟩ := ih (n + 1) t h1
      exact ⟨v, List.mem_cons_of_mem _ hv, hfacts⟩

theorem detectTablesByLayout_facts {pages : List (List Token)}
    {t : TableDetectionResult} (h : t ∈ detectTablesByLayout pages) :
    (∀ r ∈ t.data, r.length = t.headers.length)
      ∧ (t.confidence = 80 ∨ t.confidence = 90) := by
  obtain ⟨u, hu, hh, hd, hc⟩ := reindexFrom_mem 0 _ t h
  obtain ⟨page, _, hpage⟩ := List.mem_filterMap.mp hu
  obtain ⟨hrows, hconf⟩ := detectTablesByLayoutPage_facts hpage
  refine ⟨?_, by rw [hc]; exact hconf⟩
  intro r hr
  rw [hd] at hr
  rw [hh]
  exact hrows r hr

theorem processJobTables_cases {pages : List (List Token)} {text : String}
    {thr : ℤ} {sens : Sens} {t : TableDetectionResult}
    (h : t ∈ processJobTables pages text thr sens) :
    t ∈ detectTablesByLayout pages ∨ t ∈ detectTables text thr sens
      ∨ t = fallbackTable text := by
  simp only [processJobTables] at h
  split at h
  · exact Or.inl h
  split at h
  · exact Or.inr (Or.inl h)
  · exact Or.inr (Or.inr (List.mem_singleton.mp h))

theorem matchExact_cons_iff (p : RPiece) (ps : List RPiece) (cs : List Char) :
    matchExact (p :: ps) cs = true ↔
      ∃ i, i ≤ cs.length ∧ okLen p i = true ∧ (cs.take i).all p.cls = true
        ∧ matchExact ps (cs.drop i) = true := by
  simp [matchExact, List.any_eq_true, List.mem_range, Nat.lt_succ_iff,
    Bool.and_eq_true, and_assoc]

theorem matchExact_append_elim :
    ∀ (ps qs : List RPiece) (cs : List Char), matchExact (ps ++ qs) cs = true →
      ∃ n, n ≤ cs.length ∧ matchExact ps (cs.take n) = true
        ∧ matchExact qs (cs.drop n) = true := by
  intro ps
  induction ps with
  | nil =>
    intro qs cs h
    exact ⟨0, Nat.zero_le _, by simp [matchExact], by simpa using h⟩
  | cons p ps ih =>
    intro qs cs h
    rw [List.cons_append] at h
    obtain ⟨i, hi, hok, hall, hrest⟩ := (matchExact_cons_iff _ _ _).mp h
    obtain ⟨n, hn, h1, h2⟩ := ih qs (cs.drop i) hrest
    rw [List.length_drop] at hn
    refine ⟨i + n, by omega, ?_, ?_⟩
    · apply (matchExact_cons_iff _ _ _).mpr
      refine ⟨i, ?_, hok, ?_, ?_⟩
      · rw [List.length_take]; omega
      · rw [List.take_take, min_eq_left (by omega)]
        exact hall
      · rw [List.drop_take]
        simpa using h1
    · rw [← List.drop_drop]
      exact h2

theorem matchExact_append_intro :
    ∀ (ps qs : List RPiece) (as bs : List Char), matchExact ps as = true →
      matchExact qs bs = true → matchExact (ps ++ qs) (as ++ bs) = true := by
  intro ps
  induction ps with
  | nil =>
    intro qs as bs h1 h2
    have has : as = [] := by
      simpa [matchExact, List.isEmpty_iff] using h1
    subst has
    simpa using h2
  | cons p ps ih =>
    intro qs as bs h1 h2
    obtain ⟨i, hi, hok, hall, hrest⟩ := (matchExact_cons_iff _ _ _).mp h1
    rw [List.cons_append]
    apply (matchExact_cons_iff _ _ _).mpr
    refine ⟨i, ?_, hok, ?_, ?_⟩
    · rw [List.length_append]; omega
    · rw [List.take_append_of_le_length hi]
      exact hall
    · rw [List.drop_append_of_le_length hi]
      exact ih qs _ bs hrest h2

theorem matchExact_slack (cs : List Char) : matchExact [anySlack] cs = true := by
  apply (matchExact_cons_iff _ _ _).mpr
  refine ⟨cs.length, le_rfl, by simp [okLen, anySlack], ?_, ?_⟩
  · simp [anySlack]
  · simp [matchExact]

theorem testU_append_left {ps qs : List RPiece} {s : String}
    (h : testU (ps ++ qs) s = true) : testU ps s = true := by
  unfold testU at h ⊢
  have hre : anySlack :: ((ps ++ qs) ++ [anySlack])
      = (anySlack :: ps) ++ (qs ++ [anySlack]) := by
    simp
  rw [hre] at h
  obtain ⟨n, _, h1, h2⟩ := matchExact_append_elim _ _ _ h
  have h3 : matchExact ((anySlack :: ps) ++ [anySlack])
      (s.data.take n ++ s.data.drop n) = true :=
    matchExact_append_intro _ _ _ _ h1 (matchExact_slack _)
  rw [List.take_append_drop] at h3
  simpa using h3

theorem testU_append_right {ps qs : List RPiece} {s : String}
    (h : testU (ps ++ qs) s = true) : testU qs s = true := by
  unfold testU at h ⊢
  have hre : anySlack :: ((ps ++ qs) ++ [anySlack])
      = (anySlack :: ps) ++ (qs ++ [anySlack]) := by
    simp
  rw [hre] at h
  obtain ⟨n, _, _, h2⟩ := matchExact_append_elim _ _ _ h
  have h3 : matchExact ([anySlack] ++ (qs ++ [anySlack]))
      (s.data.take n ++ s.data.drop n) = true :=
    matchExact_append_intro _ _ _ _ (matchExact_slack _) h2
  rw [List.take_append_drop] at h3
  simpa using h3

theorem isTableLine_low_imp (line : String) (h : isTableLine line Sens.low = true) :
    isTableLine line Sens.medium = true ∧ isTableLine line Sens.high = true := by
  unfold isTableLine patternsFor at h ⊢
  rw [List.any_eq_true] at h
  obtain ⟨p, hp, htest⟩ := h
  simp only [lowPatterns, List.mem_cons, List.not_mem_nil, or_false] at hp
  rcases hp with hp | hp
  · subst hp
    replace htest : testU [pcPipe, pcDotStar, pcPipe, pcDotStar, pcPipe] line = true :=
      htest
    constructor
    · rw [List.any_eq_true]
      refine ⟨⟨[pcPipe, pcDotStar, pcPipe], false⟩, by simp [mediumPatterns], ?_⟩
      exact @testU_append_left [pcPipe, pcDotStar, pcPipe] [pcDotStar, pcPipe]
        line htest
    · rw [List.any_eq_true]
      refine ⟨⟨[pcPipe], false⟩, by simp [highPatterns], ?_⟩
      exact @testU_append_left [pcPipe] [pcDotStar, pcPipe, pcDotStar, pcPipe]
        line htest
  · subst hp
    replace htest : testU [pcTab, pcDotStar, pcTab, pcDotStar, pcTab] line = true :=
      htest
    constructor
    · rw [List.any_eq_true]
      refine ⟨⟨[pcTab, pcDotStar, pcTab], false⟩, by simp [mediumPatterns], ?_⟩
      exact @testU_append_left [pcTab, pcDotStar, pcTab] [pcDotStar, pcTab]
        line htest
    · rw [List.any_eq_true]
      refine ⟨⟨[pcTab], false⟩, by simp [highPatterns], ?_⟩
      exact @testU_append_left [pcTab] [pcDotStar, pcTab, pcDotStar, pcTab]
        line htest

theorem chain'_lt_cons_weaken {a b : ℚ} {l : List ℚ}
    (hab : a ≤ b) (h : List.Chain' (· < ·) (b :: l)) :
    List.Chain' (· < ·) (a :: l) := by
  cases l with
  | nil => simp
  | cons c l2 =>
    rw [List.chain'_cons] at h ⊢
    exact ⟨lt_of_le_of_lt hab h.1, h.2⟩

theorem cutsOf_subset : ∀ (xs : List ℚ), ∀ c ∈ cutsOf xs, c ∈ xs := by
  intro xs
  induction xs with
  | nil => simp [cutsOf]
  | cons a rest ih =>
    cases rest with
    | nil => simp [cutsOf]
    | cons b rest2 =>
      intro c hc
      rw [cutsOf] at hc
      rcases List.mem_append.mp hc with h1 | h1
      · split at h1
        · rw [List.mem_singleton.mp h1]
          exact List.mem_cons_of_mem _ (List.mem_cons_self _ _)
        · exact absurd h1 (List.not_mem_nil c)
      · exact List.mem_cons_of_mem _ (ih c h1)

theorem cutsOf_chain :
    ∀ (tl : List ℚ) (a : ℚ), List.Chain' (· ≤ ·) (a :: tl) →
      List.Chain' (· < ·) (a :: cutsOf (a :: tl)) := by
  intro tl
  induction tl with
  | nil => intro a _; simp [cutsOf]
  | cons b tl2 ih =>
    intro a h
    rw [List.chain'_cons] at h
    have ihb := ih b h.2
    rw [cutsOf]
    split
    · rename_i hgap
      rw [List.singleton_append, List.chain'_cons]
      exact ⟨by linarith, ihb⟩
    · rw [List.nil_append]
      exact chain'_lt_cons_weaken h.1 ihb

theorem sorted_le_getLastD :
    ∀ (l : List ℚ), List.Chain' (· ≤ ·) l → ∀ x ∈ l, x ≤ l.getLastD 0 := by
  intro l
  induction l with
  | nil => intro _ x hx; exact absurd hx (List.not_mem_nil x)
  | cons a tl ih =>
    intro h x hx
    cases tl with
    | nil =>
      rw [List.mem_singleton.mp hx]
      simp
    | cons b tl2 =>
      rw [List.chain'_cons] at h
      have hlast : (a :: b :: tl2).getLastD 0 = (b :: tl2).getLastD 0 := by
        simp [List.getLastD]
      rcases List.mem_cons.mp hx with h1 | h1
      · rw [h1, hlast]
        calc a ≤ b := h.1
          _ ≤ (b :: tl2).getLastD 0 := ih h.2 b (List.mem_cons_self _ _)
      · rw [hlast]
        exact ih h.2 x h1

theorem sorted_headD_le :
    ∀ (l : List ℚ), List.Chain' (· ≤ ·) l → ∀ x ∈ l, l.headD 0 ≤ x := by
  intro l
  induction l with
  | nil => intro _ x hx; exact absurd hx (List.not_mem_nil x)
  | cons a tl ih =>
    intro h x hx
    rcases List.mem_cons.mp hx with h1 | h1
    · subst h1; simp
    · cases tl with
      | nil => exact absurd h1 (List.not_mem_nil x)
      | cons b tl2 =>
        rw [List.chain'_cons] at h
        calc (a :: b :: tl2).headD 0 = a := rfl
          _ ≤ b := h.1
          _ = (b :: tl2).headD 0 := rfl
          _ ≤ x := ih h.2 x h1

theorem binsOf_chain {xs : List ℚ} (hne : xs ≠ [])
    (hs : List.Chain' (· ≤ ·) xs) : List.Chain' (· < ·) (binsOf xs) := by
  cases xs with
  | nil => exact absurd rfl hne
  | cons a tl =>
    have hbins : binsOf (a :: tl) = (a :: cutsOf (a :: tl))
        ++ [(a :: tl).getLastD 0 + 1] := by
      simp [binsOf]
    rw [hbins, List.chain'_append]
    refine ⟨cutsOf_chain tl a hs, by simp, ?_⟩
    intro x hx y hy
    rw [List.head?_cons, Option.mem_some_iff] at hy
    subst hy
    have hxmem : x ∈ a :: cutsOf (a :: tl) := List.mem_of_mem_getLast? hx
    have hxle : x ≤ (a :: tl).getLastD 0 := by
      rcases List.mem_cons.mp hxmem with h1 | h1
      · rw [h1]
        exact sorted_le_getLastD _ hs a (List.mem_cons_self _ _)
      · exact sorted_le_getLastD _ hs x (cutsOf_subset _ x h1)
    linarith

theorem bandsOf_chain :
    ∀ (bins : List ℚ),
      List.Chain' (fun x y => x.maxX = y.minX) (bandsOf bins) := by
  intro bins
  induction bins with
  | nil => simp [bandsOf]
  | cons b1 rest ih =>
    cases rest with
    | nil => simp [bandsOf]
    | cons b2 rest2 =>
      rw [bandsOf]
      cases rest2 with
      | nil => simp [bandsOf]
      | cons b3 rest3 =>
        have hshape : bandsOf (b2 :: b3 :: rest3)
            = ⟨b2, b3⟩ :: bandsOf (b3 :: rest3) := rfl
        rw [hshape, List.chain'_cons]
        refine ⟨rfl, ?_⟩
        rw [← hshape]
        exact ih

theorem bandsOf_pos :
    ∀ (bins : List ℚ), List.Chain' (· < ·) bins →
      ∀ b ∈ bandsOf bins, b.minX < b.maxX := by
  intro bins
  induction bins with
  | nil => simp [bandsOf]
  | cons b1 rest ih =>
    cases rest with
    | nil => simp [bandsOf]
    | cons b2 rest2 =>
      intro h b hb
      rw [List.chain'_cons] at h
      rw [bandsOf] at hb
      rcases List.mem_cons.mp hb with h1 | h1
      · subst h1; exact h.1
      · exact ih h.2 b h1

theorem bandsOf_cover :
    ∀ (bins : List ℚ), 2 ≤ bins.length → ∀ q : ℚ,
      bins.headD 0 ≤ q → q < bins.getLastD 0 →
      ∃ b ∈ bandsOf bins, bandContains b q = true := by
  intro bins
  induction bins with
  | nil => intro h; simp at h
  | cons b1 rest ih =>
    cases rest with
    | nil => intro h; simp at h
    | cons b2 rest2 =>
      intro _ q hq1 hq2
      by_cases hq : q < b2
      · refine ⟨⟨b1, b2⟩, by rw [bandsOf]; exact List.mem_cons_self _ _, ?_⟩
        simp only [bandContains, Bool.and_eq_true, decide_eq_true_eq]
        exact ⟨hq1, hq⟩
      · push_neg at hq
        cases rest2 with
        | nil =>
          exact absurd hq2 (by simp only [List.getLastD]; push_neg; simpa using hq)
        | cons b3 rest3 =>
          have hlast : (b1 :: b2 :: b3 :: rest3).getLastD 0
              = (b2 :: b3 :: rest3).getLastD 0 := by
            simp [List.getLastD]
          obtain ⟨b, hb, hcont⟩ := ih (by simp) q hq (by rw [hlast] at hq2; exact hq2)
          exact ⟨b, by rw [bandsOf]; exact List.mem_cons_of_mem _ hb, hcont⟩

theorem xPositionsOf_sorted (rows : List LayoutRow) :
    List.Chain' (· ≤ ·) (xPositionsOf rows) := by
  unfold xPositionsOf
  exact List.Pairwise.chain' (List.sorted_insertionSort _ _)

theorem addToRow_mem_self :
    ∀ (rows : List LayoutRow) (y : ℚ) (t : Token),
      ∃ r ∈ addToRow rows y t, t ∈ r.items := by
  intro rows
  induction rows with
  | nil =>
    intro y t
    exact ⟨⟨y, [t]⟩, List.mem_cons_self _ _, List.mem_cons_self _ _⟩
  | cons r rs ih =>
    intro y t
    rw [addToRow]
    split
    · exact ⟨⟨r.y, r.items ++ [t]⟩, List.mem_cons_self _ _,
        List.mem_append.mpr (Or.inr (List.mem_cons_self _ _))⟩
    · obtain ⟨r2, hr2, ht⟩ := ih y t
      exact ⟨r2, List.mem_cons_of_mem _ hr2, ht⟩

theorem addToRow_mem_mono :
    ∀ (rows : List LayoutRow) (y : ℚ) (t s : Token),
      (∃ r ∈ rows, s ∈ r.items) → ∃ r ∈ addToRow rows y t, s ∈ r.items := by
  intro rows
  induction rows with
  | nil =>
    intro y t s h
    obtain ⟨r, hr, _⟩ := h
    exact absurd hr (List.not_mem_nil r)
  | cons r rs ih =>
    intro y t s h
    obtain ⟨r0, hr0, hs⟩ := h
    rw [addToRow]
    split
    · rcases List.mem_cons.mp hr0 with h1 | h1
      · refine ⟨⟨r.y, r.items ++ [t]⟩, List.mem_cons_self _ _, ?_⟩
        rw [h1] at hs
        exact List.mem_append.mpr (Or.inl hs)
      · exact ⟨r0, List.mem_cons_of_mem _ h1, hs⟩
    · rcases List.mem_cons.mp hr0 with h1 | h1
      · refine ⟨r, List.mem_cons_self _ _, ?_⟩
        rw [h1] at hs
        exact hs
      · obtain ⟨r2, hr2, hs2⟩ := ih y t s ⟨r0, h1, hs⟩
        exact ⟨r2, List.mem_cons_of_mem _ hr2, hs2⟩

theorem clusterRows_fold_mem :
    ∀ (items : List Token) (acc : List LayoutRow) (t : Token),
      ((∃ r ∈ acc, t ∈ r.items) ∨ t ∈ items) →
      ∃ r ∈ items.foldl (fun rows tok => addToRow rows (roundTo2 tok.y) tok) acc,
        t ∈ r.items := by
  intro items
  induction items with
  | nil =>
    intro acc t h
    rcases h with h | h
    · exact h
    · exact absurd h (List.not_mem_nil t)
  | cons tok toks ih =>
    intro acc t h
    rw [List.foldl_cons]
    refine ih (addToRow acc (roundTo2 tok.y) tok) t ?_
    rcases h with h | h
    · exact Or.inl (addToRow_mem_mono acc _ tok t h)
    · rcases List.mem_cons.mp h with h1 | h1
      · rw [h1]
        exact Or.inl (addToRow_mem_self acc _ tok)
      · exact Or.inr h1

theorem clusterRows_mem {items : List Token} {t : Token} (h : t ∈ items) :
    ∃ r ∈ clusterRows items, t ∈ r.items :=
  clusterRows_fold_mem items [] t (Or.inr h)

theorem sortRows_mem {rows : List LayoutRow} {t : Token}
    (h : ∃ r ∈ rows, t ∈ r.items) : ∃ r ∈ sortRows rows, t ∈ r.items := by
  obtain ⟨r0, hr0, ht⟩ := h
  unfold sortRows
  refine ⟨{ r0 with items := r0.items.insertionSort (fun a b => a.x ≤ b.x) },
    List.mem_map.mpr ⟨r0, (List.mem_insertionSort _).mpr hr0, rfl⟩, ?_⟩
  exact (List.mem_insertionSort _).mpr ht

theorem roundX_mem_xPositions {tokens : List Token} {t : Token}
    (h : t ∈ pageItems tokens) :
    roundTo2 t.x ∈ xPositionsOf (pageRows tokens) := by
  unfold xPositionsOf
  rw [List.mem_insertionSort, List.mem_map]
  refine ⟨t, ?_, rfl⟩
  rw [List.mem_flatten]
  obtain ⟨r, hr, ht⟩ := sortRows_mem (clusterRows_mem h)
  exact ⟨r.items, List.mem_map.mpr ⟨r, hr, rfl⟩, ht⟩

theorem findIdx?_spec (p : ColumnBand → Bool) :
    ∀ (l : List ColumnBand) (s i : ℕ), List.findIdx? p l s = some i →
      s ≤ i ∧ i - s < l.length ∧ p (l.getD (i - s) ⟨0, 0⟩) = true
        ∧ ∀ j < i - s, p (l.getD j ⟨0, 0⟩) = false := by
  intro l
  induction l with
  | nil =>
    intro s i h
    simp [List.findIdx?] at h
  | cons a l2 ih =>
    intro s i h
    rw [List.findIdx?_cons] at h
    split at h
    · rename_i hpa
      rw [Option.some.injEq] at h
      subst h
      refine ⟨le_rfl, by simp, by simpa using hpa, ?_⟩
      intro j hj
      omega
    · rename_i hpa
      obtain ⟨h1, h2, h3, h4⟩ := ih (s + 1) i h
      have hms : i - s = (i - (s + 1)) + 1 := by omega
      refine ⟨by omega, by simp only [List.length_cons]; omega, ?_, ?_⟩
      · rw [hms, List.getD_cons_succ]
        exact h3
      · intro j hj
        cases j with
        | zero =>
          rw [List.getD_cons_zero]
          simpa using hpa
        | succ k =>
          rw [List.getD_cons_succ]
          exact h4 k (by omega)

theorem findIdx?_none (p : ColumnBand → Bool) :
    ∀ (l : List ColumnBand) (s : ℕ), List.findIdx? p l s = none →
      ∀ b ∈ l, p b = false := by
  intro l
  induction l with
  | nil =>
    intro s _ b hb
    exact absurd hb (List.not_mem_nil b)
  | cons a l2 ih =>
    intro s h b hb
    rw [List.findIdx?_cons] at h
    split at h
    · exact absurd h (by simp)
    · rename_i hpa
      rcases List.mem_cons.mp hb with h1 | h1
      · rw [h1]
        simpa using hpa
      · exact ih (s + 1) h b h1

theorem colIndexOf_first {cols : List ColumnBand} {x : ℚ}
    (h : ∃ b ∈ cols, bandContains b x = true) :
    bandContains (cols.getD (colIndexOf cols x) ⟨0, 0⟩) x = true
      ∧ ∀ j < colIndexOf cols x, bandContains (cols.getD j ⟨0, 0⟩) x = false := by
  unfold colIndexOf
  cases hfind : cols.findIdx? (fun c => bandContains c x) with
  | none =>
    exfalso
    obtain ⟨b, hb, hcont⟩ := h
    have := findIdx?_none _ cols 0 hfind b hb
    rw [hcont] at this
    exact absurd this (by simp)
  | some i =>
    obtain ⟨_, _, h3, h4⟩ := findIdx?_spec _ cols 0 i hfind
    rw [Nat.sub_zero] at h3 h4
    exact ⟨h3, h4⟩

theorem binsOf_length (xs : List ℚ) : 2 ≤ (binsOf xs).length := by
  simp only [binsOf, List.length_cons, List.length_append, List.length_singleton]
  omega

theorem binsOf_headD (xs : List ℚ) : (binsOf xs).headD 0 = xs.headD 0 := rfl

theorem binsOf_getLastD (xs : List ℚ) :
    (binsOf xs).getLastD 0 = xs.getLastD 0 + 1 := by
  unfold binsOf
  rw [show xs.headD 0 :: (cutsOf xs ++ [xs.getLastD 0 + 1])
      = (xs.headD 0 :: cutsOf xs) ++ [xs.getLastD 0 + 1] from rfl]
  exact List.getLastD_concat _ _ _

theorem xs_covered {rows : List LayoutRow} {q : ℚ}
    (hq : q ∈ xPositionsOf rows) :
    ∃ b ∈ columnsOf rows, bandContains b q = true := by
  have hs := xPositionsOf_sorted rows
  refine bandsOf_cover (binsOf (xPositionsOf rows)) (binsOf_length _) q ?_ ?_
  · rw [binsOf_headD]
    exact sorted_headD_le _ hs q hq
  · rw [binsOf_getLastD]
    have := sorted_le_getLastD _ hs q hq
    linarith

theorem chain_pos_pairwise :
    ∀ (l : List ColumnBand), (∀ b ∈ l, b.minX < b.maxX) →
      List.Chain' (fun x y => x.maxX = y.minX) l →
      List.Pairwise (fun x y => x.maxX ≤ y.minX) l := by
  intro l
  induction l with
  | nil => intro _ _; exact List.Pairwise.nil
  | cons a l2 ih =>
    intro hpos hchain
    have hp2 := ih (fun b hb => hpos b (List.mem_cons_of_mem _ hb)) hchain.tail
    rw [List.pairwise_cons]
    refine ⟨?_, hp2⟩
    cases l2 with
    | nil => intro b hb; exact absurd hb (List.not_mem_nil b)
    | cons c l3 =>
      intro b hb
      rw [List.chain'_cons] at hchain
      have hac : a.maxX = c.minX := hchain.1
      rcases List.mem_cons.mp hb with h1 | h1
      · rw [h1]
        exact le_of_eq hac
      · have hcb : c.maxX ≤ b.minX := (List.pairwise_cons.mp hp2).1 b h1
        have hcpos : c.minX < c.maxX :=
          hpos c (List.mem_cons_of_mem _ (List.mem_cons_self _ _))
        rw [hac]
        exact le_trans (le_of_lt hcpos) hcb

theorem pairwise_disjoint_of_le {l : List ColumnBand}
    (h : List.Pairwise (fun x y => x.maxX ≤ y.minX) l) :
    List.Pairwise (fun x y => ∀ q : ℚ,
      ¬(bandContains x q = true ∧ bandContains y q = true)) l := by
  refine h.imp ?_
  intro x y hxy q hq
  obtain ⟨hx, hy⟩ := hq
  simp only [bandContains, Bool.and_eq_true, decide_eq_true_eq] at hx hy
  linarith [hx.2, hy.1]

theorem sepFold_eq (p t s : ℕ) :
    (([(('|' : Char), p), ('\t', t), (' ', s)]).foldl
      (fun best cand => if cand.2 > best.2 then cand else best) ('|', 0)).1
    = (if p ≥ t ∧ p ≥ s then '|' else if t ≥ s then '\t' else ' ') := by
  simp only [List.foldl_cons, List.foldl_nil]
  have h1 : (if p > 0 then (('|' : Char), p) else ('|', 0)) = ('|', p) := by
    split
    · rfl
    · rename_i h0
      have : p = 0 := by omega
      rw [this]
  rw [h1]
  split_ifs <;> first | rfl | omega

theorem scanStep_start {thr : ℤ} {sens : Sens} {st : ScanState} {line : String}
    (hl : isTableLine line sens = true) (hst : st.inTable = false) :
    scanStep thr sens st line = { st with inTable := true, currentTable := [line] } := by
  unfold scanStep
  rw [if_pos (by rw [hl, hst]; rfl)]

theorem scanStep_reset_short {thr : ℤ} {sens : Sens} {st : ScanState} {line : String}
    (hl : isTableLine line sens = false) (hlen : st.currentTable.length < 2) :
    scanStep thr sens st line = { st with inTable := false, currentTable := [] } := by
  unfold scanStep
  rw [if_neg (by rw [hl]; simp), if_neg (by rw [hl]; simp),
    if_neg (by rw [hl]; simp; omega), if_pos (by rw [hl]; rfl)]

theorem scanFlush_short {thr : ℤ} {st : ScanState}
    (hlen : st.currentTable.length < 2) : scanFlush thr st = st.tables := by
  unfold scanFlush
  rw [if_neg (by simp; omega)]

theorem scan_noadj_aux (thr : ℤ) (sens : Sens) :
    ∀ (lines : List String) (st : ScanState),
      List.Chain' (fun a b =>
        ¬(isTableLine a sens = true ∧ isTableLine b sens = true)) lines →
      st.tables = [] →
      (st.inTable = true → st.currentTable.length = 1 ∧
        ∀ l, lines.head? = some l → isTableLine l sens = false) →
      (st.inTable = false → st.currentTable = []) →
      scanFlush thr (lines.foldl (scanStep thr sens) st) = [] := by
  intro lines
  induction lines with
  | nil =>
    intro st _ htab hin hout
    rw [List.foldl_nil]
    have hlen : st.currentTable.length < 2 := by
      cases hst : st.inTable with
      | true => rw [(hin hst).1]; omega
      | false => rw [hout hst]; simp
    rw [scanFlush_short hlen]
    exact htab
  | cons l ls ih =>
    intro st hchain htab hin hout
    rw [List.foldl_cons]
    have hrel : ∀ y ∈ ls.head?, ¬(isTableLine l sens = true ∧ isTableLine y sens = true) :=
      (List.chain'_cons'.mp hchain).1
    by_cases hl : isTableLine l sens = true
    · cases hst : st.inTable with
      | true =>
        have := (hin hst).2 l rfl
        rw [hl] at this
        exact absurd this (by simp)
      | false =>
        rw [scanStep_start hl hst]
        refine ih _ (List.chain'_cons'.mp hchain).2 htab ?_ ?_
        · intro _
          refine ⟨rfl, ?_⟩
          intro l2 hl2
          have := hrel l2 hl2
          rw [hl] at this
          by_contra hcon
          rw [Bool.not_eq_false] at hcon
          exact this ⟨rfl, hcon⟩
        · intro hfalse
          simp at hfalse
    · rw [Bool.not_eq_true] at hl
      have hlen : st.currentTable.length < 2 := by
        cases hst : st.inTable with
        | true => rw [(hin hst).1]; omega
        | false => rw [hout hst]; simp
      rw [scanStep_reset_short hl hlen]
      refine ih _ (List.chain'_cons'.mp hchain).2 htab ?_ (fun _ => rfl)
      intro hcon
      simp at hcon

theorem scanStep_tables_short (thr : ℤ) (sens : Sens) (st : ScanState)
    (line : String) (hlen : st.currentTable.length < 2) :
    (scanStep thr sens st line).tables = st.tables := by
  unfold scanStep
  split
  · rfl
  split
  · rfl
  split
  · rename_i hcond
    exfalso
    rw [Bool.and_eq_true, Bool.and_eq_true] at hcond
    have := of_decide_eq_true hcond.2
    omega
  split
  · rfl
  · rfl


/-- C1: every ExtractedTable emitted by any path of the assembly policy
(layout detector, text-pattern detector, or fallback) has every row of `data`
exactly `headers.length` cells long; `parseTable` reaches this by padding
short rows with empty strings and truncating long ones (`normalizeRow`), the
layout path by construction, the fallback trivially. -/
theorem C1_row_width (pages : List (List Token)) (text : String) (thr : ℤ)
    (sens : Sens) (t : TableDetectionResult)
    (ht : t ∈ processJobTables pages text thr sens) :
    ∀ r ∈ t.data, r.length = t.headers.length := by
  rcases processJobTables_cases ht with h | h | h
  · exact (detectTablesByLayout_facts h).1
  · exact detectTables_forall
      (fun u => ∀ r ∈ u.data, r.length = u.headers.length) text thr sens
      (fun _ _ _ hu => (parseTable_facts hu).1) t h
  · intro r hr
    rw [h] at hr ⊢
    simp only [fallbackTable, List.mem_map] at hr
    obtain ⟨line, _, hline⟩ := hr
    rw [← hline]
    simp [fallbackTable]

theorem C1_row_width_witness :
    (["alpha beta gamma"] : List String).length
      = (fallbackTable "alpha beta gamma").headers.length :=
  C1_row_width [] "alpha beta gamma" 70 Sens.medium
    (fallbackTable "alpha beta gamma")
    (by decide) ["alpha beta gamma"]
    (by decide)

/-- C2: when the layout detector and the text-pattern detector both return
zero tables, the assembly policy returns exactly one fallback table with
headers `["Text"]`, one data row per non-blank trimmed line, confidence 80
and bounding-box height `max 20 (20 * number of lines)`; and the assembly
policy never returns an empty table list. -/
theorem C2_fallback (pages : List (List Token)) (text : String) (thr : ℤ)
    (sens : Sens) :
    (detectTablesByLayout pages = [] → detectTables text thr sens = [] →
      processJobTables pages text thr sens
        = [⟨0, ["Text"], (textLines text).map (fun line => [line]), 80,
            ⟨0, 0, 100, max 20 (((textLines text).length : ℚ) * 20)⟩⟩])
    ∧ processJobTables pages text thr sens ≠ [] := by
  constructor
  · intro h1 h2
    simp [processJobTables, h1, h2, fallbackTable]
  · simp only [processJobTables]
    split
    · rename_i hcond
      intro hc
      rw [hc] at hcond
      simp at hcond
    split
    · rename_i hcond
      intro hc
      rw [hc] at hcond
      simp at hcond
    · simp

theorem C2_fallback_witness :
    processJobTables [] "alpha beta" 70 Sens.medium
      = [⟨0, ["Text"], (textLines "alpha beta").map (fun line => [line]), 80,
          ⟨0, 0, 100, max 20 (((textLines "alpha beta").length : ℚ) * 20)⟩⟩] :=
  (C2_fallback [] "alpha beta" 70 Sens.medium).1 (by decide)
    (by decide)

/-- C3: every table emitted by any path has confidence in [0,100]; every
table emitted by the canonical text-pattern detector has confidence in
[30,100]; the canonical scoring function clamps to the floor 30 while the
second processor variant's scoring function clamps to the floor 0. -/
theorem C3_confidence_bounds :
    (∀ (pages : List (List Token)) (text : String) (thr : ℤ) (sens : Sens)
        (t : TableDetectionResult), t ∈ processJobTables pages text thr sens →
        0 ≤ t.confidence ∧ t.confidence ≤ 100)
    ∧ (∀ (text : String) (thr : ℤ) (sens : Sens) (t : TableDetectionResult),
        t ∈ detectTables text thr sens → 30 ≤ t.confidence ∧ t.confidence ≤ 100)
    ∧ (∀ (headers : List String) (data : List (List String)),
        30 ≤ calculateTableConfidence headers data
          ∧ calculateTableConfidence headers data ≤ 100)
    ∧ (∀ (headers : List String) (data : List (List String)),
        0 ≤ calculateTableConfidenceV2 headers data
          ∧ calculateTableConfidenceV2 headers data ≤ 100) := by
  have htext : ∀ (text : String) (thr : ℤ) (sens : Sens) (t : TableDetectionResult),
      t ∈ detectTables text thr sens → 30 ≤ t.confidence ∧ t.confidence ≤ 100 :=
    fun text thr sens t ht => detectTables_forall
      (fun u => 30 ≤ u.confidence ∧ u.confidence ≤ 100) text thr sens
      (fun _ _ _ hu => (parseTable_facts hu).2) t ht
  refine ⟨?_, htext, calculateTableConfidence_bounds, calculateTableConfidenceV2_bounds⟩
  intro pages text thr sens t ht
  rcases processJobTables_cases ht with h | h | h
  · rcases (detectTablesByLayout_facts h).2 with h8 | h9
    · rw [h8]; norm_num
    · rw [h9]; norm_num
  · have := htext text thr sens t h
    exact ⟨by linarith [this.1], this.2⟩
  · rw [h]
    simp only [fallbackTable]
    norm_num

theorem C3_confidence_bounds_witness :
    (0 ≤ (fallbackTable "gamma delta").confidence
      ∧ (fallbackTable "gamma delta").confidence ≤ 100)
    ∧ (30 ≤ (⟨0, ["A", "B", "C"], [["D", "E", "F"]], 75, ⟨0, 0, 100, 20⟩⟩
          : TableDetectionResult).confidence
      ∧ (⟨0, ["A", "B", "C"], [["D", "E", "F"]], 75, ⟨0, 0, 100, 20⟩⟩
          : TableDetectionResult).confidence ≤ 100) :=
  ⟨C3_confidence_bounds.1 [] "gamma delta" 70 Sens.medium _
      (by decide),
   C3_confidence_bounds.2.1 "A | B | C\nD | E | F" 30 Sens.medium _
      (by decide)⟩

/-- C4 counterexample: the line `"11"` is table-like at `medium` sensitivity
(it matches `/[\$\d,]+.*[\$\d,]+/`) but not at `high` sensitivity, so the
medium acceptance set is not contained in the high one and the claimed
nesting `low ⊆ medium ⊆ high` fails between medium and high. -/
theorem C4_counterexample :
    isTableLine "11" Sens.medium = true ∧ isTableLine "11" Sens.high = false := by
  decide

/-- C4 (amended): a line classified table-like at sensitivity `low` is also
table-like at `medium` and at `high`; the medium level, however, is not a
subset of the high level (see the counterexample). -/
theorem C4_low_subset (line : String) (h : isTableLine line Sens.low = true) :
    isTableLine line Sens.medium = true ∧ isTableLine line Sens.high = true :=
  isTableLine_low_imp line h

theorem C4_low_subset_witness :
    isTableLine "|a|b|" Sens.medium = true ∧ isTableLine "|a|b|" Sens.high = true :=
  C4_low_subset "|a|b|" (by decide)

/-- C5: a page whose derived column-band count falls outside the inclusive
range [2,12] (in particular exactly 1 band or exactly 13 bands) yields zero
layout candidates for that page. -/
theorem C5_band_range (tokens : List Token)
    (h : (pageColumns tokens).length < 2 ∨ 12 < (pageColumns tokens).length) :
    detectTablesByLayoutPage tokens = none := by
  unfold detectTablesByLayoutPage
  split
  · rfl
  · rw [if_pos ?_]
    rcases h with h | h <;> simp [h]

theorem C5_band_range_witness :
    detectTablesByLayoutPage [⟨"a", 0, 0⟩] = none :=
  C5_band_range [⟨"a", 0, 0⟩] (by decide)

/-- C6: `detectSeparator` picks the separator with the strictly highest total
match count over the block's lines (pipe and tab counted per occurrence, the
global-flag-less space-run regex once per line containing a run), ties kept
by the first-considered candidate in the order pipe, tab, space-run; in
particular a strictly higher pipe total always selects the pipe. -/
theorem C6_separator_selection (lines : List String) :
    detectSeparator lines = specSeparatorChoice lines
    ∧ (tabScoreOf lines < pipeScoreOf lines →
        spaceScoreOf lines < pipeScoreOf lines → detectSeparator lines = '|') := by
  have key : detectSeparator lines = specSeparatorChoice lines := by
    unfold detectSeparator specSeparatorChoice
    exact sepFold_eq _ _ _
  refine ⟨key, fun h1 h2 => ?_⟩
  rw [key]
  unfold specSeparatorChoice
  rw [if_pos ⟨le_of_lt h1, le_of_lt h2⟩]

theorem C6_separator_selection_witness :
    detectSeparator ["a|b  c", "x|y"] = '|' :=
  (C6_separator_selection ["a|b  c", "x|y"]).2 (by decide) (by decide)

def c7InputText : String :=
  "Region | Sales Target | Actual Sales | Status\nNorth America | $4,200,000 | $4,580,000 | Exceeded\nEurope | $2,800,000 | $2,650,000 | Near Target"

/-- C7: on the three given pipe-delimited lines with sensitivity `medium` and
confidence threshold 70, the text-pattern detector returns exactly one table
with headers Region/Sales Target/Actual Sales/Status, exactly 2 data rows,
and confidence at least 70 (in fact 100). -/
theorem C7_scenario :
    (detectTables c7InputText 70 Sens.medium).length = 1
    ∧ (detectTables c7InputText 70 Sens.medium).map TableDetectionResult.headers
        = [["Region", "Sales Target", "Actual Sales", "Status"]]
    ∧ (detectTables c7InputText 70 Sens.medium).map (fun t => t.data.length) = [2]
    ∧ (detectTables c7InputText 70 Sens.medium).all
        (fun t => 70 ≤ t.confidence) = true := by
  decide

def c8PageTokens : List Token := [⟨"a", 9996/1000, 0⟩, ⟨"b", 50, 0⟩]

/-- C8 counterexample: bands are cut from x-positions rounded to two
decimals, but tokens are assigned by raw x.  On this page the bands are
[10,50) and [50,51), the first token's raw x-coordinate 9.996 lies in no
band at all (refuting "every token's x-coordinate lies in at least one
band"), and the `Math.max(0, findIndex(...))` clamp assigns it to band 0. -/
theorem C8_counterexample :
    (⟨"a", 9996/1000, 0⟩ : Token) ∈ pageItems c8PageTokens
    ∧ pageColumns c8PageTokens = [⟨10, 50⟩, ⟨50, 51⟩]
    ∧ (pageColumns c8PageTokens).all
        (fun b => !bandContains b ((9996 : ℚ)/1000)) = true
    ∧ colIndexOf (pageColumns c8PageTokens) ((9996 : ℚ)/1000) = 0 := by
  decide

/-- C8 (amended): for every page with at least one non-blank token, the
derived column bands are contiguous (each band's upper bound is the next
band's lower bound), nonempty half-open intervals, pairwise disjoint; every
token's ROUNDED x-coordinate lies in at least one band; and whenever some
band contains a (raw) x-coordinate, the assigned column index is the first
such band.  (A raw x-coordinate smaller than the rounded minimum lies in no
band and is clamped to band 0 — see the counterexample.) -/
theorem C8_band_invariants (tokens : List Token) (h : pageItems tokens ≠ []) :
    List.Chain' (fun a b => a.maxX = b.minX) (pageColumns tokens)
    ∧ (∀ b ∈ pageColumns tokens, b.minX < b.maxX)
    ∧ List.Pairwise (fun a b => ∀ q : ℚ,
        ¬(bandContains a q = true ∧ bandContains b q = true)) (pageColumns tokens)
    ∧ (∀ t ∈ pageItems tokens, ∃ b ∈ pageColumns tokens,
        bandContains b (roundTo2 t.x) = true)
    ∧ (∀ x : ℚ, (∃ b ∈ pageColumns tokens, bandContains b x = true) →
        bandContains ((pageColumns tokens).getD
          (colIndexOf (pageColumns tokens) x) ⟨0, 0⟩) x = true
        ∧ ∀ j < colIndexOf (pageColumns tokens) x,
            bandContains ((pageColumns tokens).getD j ⟨0, 0⟩) x = false) := by
  obtain ⟨t0, ht0⟩ := List.exists_mem_of_ne_nil _ h
  have hxs_ne : xPositionsOf (pageRows tokens) ≠ [] :=
    List.ne_nil_of_mem (roundX_mem_xPositions ht0)
  have hs := xPositionsOf_sorted (pageRows tokens)
  have hbins := binsOf_chain hxs_ne hs
  have hchain : List.Chain' (fun a b => a.maxX = b.minX) (pageColumns tokens) :=
    bandsOf_chain _
  have hpos : ∀ b ∈ pageColumns tokens, b.minX < b.maxX := bandsOf_pos _ hbins
  refine ⟨hchain, hpos,
    pairwise_disjoint_of_le (chain_pos_pairwise _ hpos hchain), ?_, ?_⟩
  · intro t ht
    exact xs_covered (roundX_mem_xPositions ht)
  · intro x hx
    exact colIndexOf_first hx

theorem C8_band_invariants_witness :
    List.Chain' (fun a b => a.maxX = b.minX) (pageColumns c8PageTokens) :=
  (C8_band_invariants c8PageTokens (by decide)).1

/-- C9: a candidate block of fewer than 2 lines never produces a table:
`parseTable` rejects short blocks, the scan loop's emit branch and the
end-of-input flush are guarded by `currentTable.length > 1`, and on input
whose lines never have two consecutive table-like lines (so every block has
exactly one line) the text-pattern detector emits zero candidates. -/
theorem C9_short_blocks (thr : ℤ) (sens : Sens) :
    (∀ (ls : List String) (i : ℕ), ls.length < 2 → parseTable ls i thr = none)
    ∧ (∀ (st : ScanState) (line : String), st.currentTable.length < 2 →
        (scanStep thr sens st line).tables = st.tables)
    ∧ (∀ st : ScanState, st.currentTable.length < 2 → scanFlush thr st = st.tables)
    ∧ (∀ lines : List String,
        List.Chain' (fun a b =>
          ¬(isTableLine a sens = true ∧ isTableLine b sens = true)) lines →
        detectTablesLines lines thr sens = []) := by
  refine ⟨fun ls i h => parseTable_short h,
    fun st line h => scanStep_tables_short thr sens st line h,
    fun st h => scanFlush_short h, ?_⟩
  intro lines hchain
  unfold detectTablesLines
  refine scan_noadj_aux thr sens lines ⟨[], [], 0, false⟩ hchain rfl ?_ (fun _ => rfl)
  intro hcon
  simp at hcon

theorem C9_short_blocks_witness :
    parseTable ["a | b"] 0 70 = none
    ∧ (scanStep 70 Sens.high ⟨[], ["a | b"], 0, true⟩ "so, it goes.").tables = []
    ∧ scanFlush 70 ⟨[], ["a | b"], 0, true⟩ = []
    ∧ detectTablesLines ["so, it goes.", "a | b", "end?"] 70 Sens.high = [] :=
  ⟨(C9_short_blocks 70 Sens.high).1 ["a | b"] 0 (by decide),
   (C9_short_blocks 70 Sens.high).2.1 ⟨[], ["a | b"], 0, true⟩ "so, it goes."
     (by decide),
   (C9_short_blocks 70 Sens.high).2.2.1 ⟨[], ["a | b"], 0, true⟩ (by decide),
   (C9_short_blocks 70 Sens.high).2.2.2 ["so, it goes.", "a | b", "end?"]
     (List.chain'_cons.mpr ⟨by decide,
       List.chain'_cons.mpr ⟨by decide, List.chain'_singleton _⟩⟩)⟩

/-- C10: every layout-detector page candidate has confidence exactly 80 or
exactly 90: the +20 bonus for consistent row widths is always earned (grid
rows all have one cell per band and the empty-column filter removes the same
indices from every row), leaving only the +10 non-empty-cell bonus to vary. -/
theorem C10_layout_confidence (tokens : List Token) (t : TableDetectionResult)
    (h : detectTablesByLayoutPage tokens = some t) :
    t.confidence = 80 ∨ t.confidence = 90 :=
  (detectTablesByLayoutPage_facts h).2

def c10PageTokens : List Token :=
  [⟨"Name", 0, 100⟩, ⟨"Age", 50, 100⟩, ⟨"Bob", 0, 80⟩, ⟨"7", 50, 80⟩]

def c10PageTable : TableDetectionResult :=
  ⟨0, ["Name", "Age"], [["Bob", "7"]], 90, ⟨0, 100, 51, 24⟩⟩

theorem C10_layout_confidence_witness :
    c10PageTable.confidence = 80 ∨ c10PageTable.confidence = 90 :=
  C10_layout_confidence c10PageTokens c10PageTable (by decide)
